import Mathlib

/-!
# segnet-console: confusion-matrix accumulation and mean IoU

A shallow embedding of the evaluation code of `segnet-console.cpp`:

* `initGt2PredMap` / `gt2pred`: the Cityscapes label-id remap table and its `operator[]` lookup,
* `updateIoU`: the per-image accumulation into the `numClasses × numClasses` counter matrix,
* `mIoU`: the mean intersection-over-union over the running matrix,
* `processEntry`: the derivation of the ground-truth file name from a directory entry in `main`.

Conventions of the embedding.

* Pixel bytes (`uint8_t`) are natural numbers (the code only ever reads values `0..255`).
* `int numClasses` is an `Int`, and the comparison `gtPixel > numClasses-1` is an `Int` comparison.
* A counter cell (`uint64_t`) is a natural number.  `incrementWrap`, `countLoopWrap` and
  `updateIoUWrap` carry the 64-bit wrap-around of `++`; `increment`, `countLoop` and `updateIoU`
  count in unbounded naturals.  The two agree as long as no cell reaches `2^64`
  (`updateIoUWrap_eq_updateIoU`), which from the zero matrix of `main` takes `2^64` counted
  pixels.
* `float` arithmetic is exact rational arithmetic; the one division whose divisor may be zero
  (`miou /= miouDenominator`) follows IEEE-754: `0/0` is NaN and `x/0` is an infinity.
* `size_t` is 64 bits wide and wraps modulo `2^64`.
* An access outside an allocated buffer makes the embedded function return `none` (or `fault`).
* A read of the matrix by `mIoU` is total (`cell`); for an `n × n` matrix and `numClasses = n`
  every read is inside the matrix.
-/

namespace SegnetConsole

/-! ## The remap table -/

/-- The initialiser list assigned to the global `gt2pred` by `initGt2PredMap()`. -/
def initGt2PredMap : List (Nat × Nat) :=
  [ (0, 0), (1, 0), (2, 0), (3, 0), (4, 0), (5, 1), (6, 2), (7, 3), (8, 4), (9, 5),
    (10, 0), (11, 6), (12, 7), (13, 8), (14, 9), (15, 10), (16, 10), (17, 11), (18, 0),
    (19, 12), (20, 13), (21, 14), (22, 15), (23, 16), (24, 17), (25, 0), (26, 18),
    (27, 19), (28, 19), (29, 0), (30, 0), (31, 0), (32, 21), (33, 21) ]

/-- The expression `gt2pred[key]` on the `std::unordered_map<uint8_t, uint8_t>` after
`initGt2PredMap()`.  For a key without an entry `operator[]` inserts the key with the
value-initialised mapped value `0` and returns it; the inserted entry gives the same answer to
every later lookup, so the map is represented by its lookup function. -/
def gt2pred (key : Nat) : Nat :=
  match initGt2PredMap.lookup key with
  | some v => v
  | none => 0

/-! ## The counter matrix -/

/-- The `uint64_t ** iouCounter`: a list of rows, row index = ground-truth class, column index =
predicted class. -/
abbrev Matrix := List (List Nat)

/-- The matrix allocated by `main`: `numClasses` rows of `numClasses` cells each. -/
def IsSquare (M : Matrix) (n : Nat) : Prop :=
  M.length = n ∧ ∀ row ∈ M, row.length = n

/-- The allocation and `memset` of the counter matrix in `main` (the "iou init" block). -/
def zeroMatrix (n : Nat) : Matrix :=
  List.replicate n (List.replicate n 0)

/-- A read `iouCounter[r][c]` (inside the allocation; `0` stands for a cell that does not
exist). -/
def cell (M : Matrix) (r c : Nat) : Nat :=
  (M.getD r []).getD c 0

/-- The statement `iouCounter[r][c] ++` with the counter read as an unbounded natural (the
machine operation, which wraps at `2^64`, is `incrementWrap`); `none` when row `r` or column `c`
is outside the allocated matrix. -/
def increment (M : Matrix) (r c : Nat) : Option Matrix :=
  match M[r]? with
  | none => none
  | some row =>
    match row[c]? with
    | none => none
    | some v => some (M.set r (row.set c (v + 1)))

/-! ## `updateIoU` -/

/-- The counting loop of `updateIoU` over the converted ground-truth bytes and the prediction
bytes; the loop runs over the `numBytes` ground-truth pixels and reads `prediction[i]` for each
(`none` if the prediction buffer is shorter). -/
def countLoop (numClasses : Int) : Matrix → List Nat → List Nat → Option Matrix
  | iouCounter, [], _ => some iouCounter
  | _, _ :: _, [] => none
  | iouCounter, gtPixel :: gts, predPixel :: preds =>
    if (gtPixel : Int) > numClasses - 1 then
      countLoop numClasses iouCounter gts preds
    else if gtPixel = predPixel then
      (increment iouCounter gtPixel gtPixel).bind fun M => countLoop numClasses M gts preds
    else
      (increment iouCounter gtPixel predPixel).bind fun M => countLoop numClasses M gts preds

/-- The function `updateIoU(iouCounter, qImg, prediction, numClasses, filename)`: `byteP` holds
the bytes of the ground-truth image.  The first loop converts every byte through `gt2pred`, the
second loop counts.  The two sets that are only printed are left out.  Counters are unbounded
naturals here; `updateIoUWrap` is the same function with the 64-bit wrap. -/
def updateIoU (iouCounter : Matrix) (byteP prediction : List Nat) (numClasses : Int) :
    Option Matrix :=
  let classIDConverted := byteP.map gt2pred
  countLoop numClasses iouCounter classIDConverted prediction

/-- The index pairs `(row, column)` at which the counting loop of `updateIoU` touches
`iouCounter`, in loop order: nothing for a pixel skipped by the guard, otherwise
`[gtPixel][gtPixel]` or `[gtPixel][predPixel]`. -/
def accessedCells (numClasses : Int) : List Nat → List Nat → List (Nat × Nat)
  | [], _ => []
  | _ :: _, [] => []
  | gtPixel :: gts, predPixel :: preds =>
    if (gtPixel : Int) > numClasses - 1 then
      accessedCells numClasses gts preds
    else if gtPixel = predPixel then
      (gtPixel, gtPixel) :: accessedCells numClasses gts preds
    else
      (gtPixel, predPixel) :: accessedCells numClasses gts preds

/-- The accumulation of `main`'s image loop: one `updateIoU` call per image, each on the matrix
left by the previous one. -/
def accumulate (numClasses : Int) : Matrix → List (List Nat × List Nat) → Option Matrix
  | iouCounter, [] => some iouCounter
  | iouCounter, (byteP, prediction) :: rest =>
    (updateIoU iouCounter byteP prediction numClasses).bind fun M => accumulate numClasses M rest

/-- The modulus of `uint64_t` arithmetic. -/
def counterModulus : Nat := 2 ^ 64

/-- The statement `iouCounter[r][c] ++` on a `uint64_t` cell, with its wrap-around: a cell
holding `2^64 - 1` becomes `0`; `none` when row `r` or column `c` is outside the allocated
matrix. -/
def incrementWrap (M : Matrix) (r c : Nat) : Option Matrix :=
  match M[r]? with
  | none => none
  | some row =>
    match row[c]? with
    | none => none
    | some v => some (M.set r (row.set c ((v + 1) % counterModulus)))

/-- The counting loop of `updateIoU` with wrapping `uint64_t` counters. -/
def countLoopWrap (numClasses : Int) : Matrix → List Nat → List Nat → Option Matrix
  | iouCounter, [], _ => some iouCounter
  | _, _ :: _, [] => none
  | iouCounter, gtPixel :: gts, predPixel :: preds =>
    if (gtPixel : Int) > numClasses - 1 then
      countLoopWrap numClasses iouCounter gts preds
    else if gtPixel = predPixel then
      (incrementWrap iouCounter gtPixel gtPixel).bind fun M =>
        countLoopWrap numClasses M gts preds
    else
      (incrementWrap iouCounter gtPixel predPixel).bind fun M =>
        countLoopWrap numClasses M gts preds

/-- The function `updateIoU(iouCounter, qImg, prediction, numClasses, filename)` with wrapping
`uint64_t` counters: the conversion loop through `gt2pred`, then the counting loop. -/
def updateIoUWrap (iouCounter : Matrix) (byteP prediction : List Nat) (numClasses : Int) :
    Option Matrix :=
  let classIDConverted := byteP.map gt2pred
  countLoopWrap numClasses iouCounter classIDConverted prediction

/-! ## `mIoU` -/

/-- The value of a `float` expression: exact rationals, plus the results of a division by
zero. -/
inductive FloatResult
  | nan
  | infinite (negative : Bool)
  | finite (q : ℚ)
  deriving DecidableEq

/-- The `float` division `x / y`. -/
def fdiv (x y : ℚ) : FloatResult :=
  if y = 0 then
    if x = 0 then FloatResult.nan else FloatResult.infinite (decide (x < 0))
  else FloatResult.finite (x / y)

/-- The indices visited by `for (int k = 1; k < numClasses; k++)`. -/
def classRange (numClasses : Int) : List Nat :=
  List.range' 1 (numClasses.toNat - 1)

/-- The inner loop of `mIoU` followed by `denominator -= numerator`. -/
def denominator (iouCounter : Matrix) (numClasses : Int) (c : Nat) : ℚ :=
  (classRange numClasses).foldl
      (fun d j => d + (cell iouCounter c j : ℚ) + (cell iouCounter j c : ℚ)) 0
    - (cell iouCounter c c : ℚ)

/-- One iteration of the outer loop of `mIoU` on the pair `(miou, miouDenominator)`. -/
def mIoUStep (iouCounter : Matrix) (numClasses : Int) (st : ℚ × Int) (c : Nat) : ℚ × Int :=
  let numerator : ℚ := (cell iouCounter c c : ℚ)
  let den := denominator iouCounter numClasses c
  if den = 0 then (st.1, st.2 - 1)
  else (st.1 + numerator / den, st.2)

/-- The function `mIoU(iouCounter, numClasses)`. -/
def mIoU (iouCounter : Matrix) (numClasses : Int) : FloatResult :=
  let st := (classRange numClasses).foldl (mIoUStep iouCounter numClasses) (0, numClasses - 1)
  fdiv st.1 (st.2 : ℚ)

/-! ## The directory loop of `main` -/

/-- The modulus of `size_t` arithmetic. -/
def sizeModulus : Nat := 2 ^ 64

/-- The value of `size_t preStrLen = strlen(imgName) - 15`. -/
def preStrLen (imgName : List Char) : Nat :=
  (imgName.length + (sizeModulus - 15)) % sizeModulus

/-- What the body of `main`'s directory loop does with one entry name, up to the two file
names it builds. -/
inductive EntryResult
  | skipped
  | fault
  | paths (preStr imgFilename gtFilename : List Char)
  deriving DecidableEq

/-- The head of the directory loop of `main` for the entry `imgName`, with `argv[1] = imgDir`
and `argv[2] = gtDir`: the `strlen(imgName) < 4` test, the computation of `preStrLen`, the copy
of the first `preStrLen` characters of `imgName` into `preStr`, and the two concatenations.  The
copy of more characters than `imgName` holds is a `fault`.  The 200-byte bound of the two name
buffers is not modelled. -/
def processEntry (imgDir gtDir imgName : List Char) : EntryResult :=
  if imgName.length < 4 then EntryResult.skipped
  else
    let len := preStrLen imgName
    if len ≤ imgName.length then
      let preStr := imgName.take len
      EntryResult.paths preStr (imgDir ++ '/' :: imgName)
        (gtDir ++ '/' :: preStr ++ "gtFine_labelIds.png".toList)
    else EntryResult.fault

/-! ## Definitions used to state the properties -/

/-- The number of pixels that the accumulation contract assigns to cell `[r][c]`: the pixels
whose remapped ground-truth class is `r`, whose prediction is `c`, and whose remapped class is
below `n`. -/
def pixelCount (n : Nat) (byteP prediction : List Nat) (r c : Nat) : Nat :=
  (byteP.zip prediction).countP
    fun px => decide (gt2pred px.1 = r ∧ px.2 = c ∧ gt2pred px.1 < n)

/-- The classes that `mIoU` averages over: those of the outer loop whose denominator is not
zero. -/
def counted (M : Matrix) (numClasses : Int) : List Nat :=
  (classRange numClasses).filter fun c => decide (denominator M numClasses c ≠ 0)

/-- The quotient `numerator/denominator` that `mIoU` adds for class `c`. -/
def iou (M : Matrix) (numClasses : Int) (c : Nat) : ℚ :=
  (cell M c c : ℚ) / denominator M numClasses c

/-- The denominator as the specification words it: the sum of row `c` over all columns
`0..n-1`, plus the sum of column `c` over all rows `0..n-1`, minus the diagonal cell. -/
def trueIoUDenominator (M : Matrix) (n c : Nat) : ℚ :=
  ((List.range n).map fun j => (cell M c j : ℚ)).sum
    + ((List.range n).map fun j => (cell M j c : ℚ)).sum
    - (cell M c c : ℚ)

/-- The mean, over the classes `1..n-1` with a non-zero `trueIoUDenominator`, of
`M[c][c] / trueIoUDenominator c`. -/
def trueIoUMean (M : Matrix) (n : Nat) : ℚ :=
  let cs := (List.range' 1 (n - 1)).filter fun c => decide (trueIoUDenominator M n c ≠ 0)
  (cs.map fun c => (cell M c c : ℚ) / trueIoUDenominator M n c).sum / (cs.length : ℚ)

/-- The denominator restricted to the non-background classes: the sum of row `c` over the
columns `1..n-1`, plus the sum of column `c` over the rows `1..n-1`, minus the diagonal
cell. -/
def foregroundDenominator (M : Matrix) (n c : Nat) : ℚ :=
  ((List.range' 1 (n - 1)).map fun j => (cell M c j : ℚ)).sum
    + ((List.range' 1 (n - 1)).map fun j => (cell M j c : ℚ)).sum
    - (cell M c c : ℚ)

/-- The classes `1..n-1` with a non-zero `foregroundDenominator`. -/
def foregroundClasses (M : Matrix) (n : Nat) : List Nat :=
  (List.range' 1 (n - 1)).filter fun c => decide (foregroundDenominator M n c ≠ 0)

/-- The matrix with row `c` and column `c` deleted. -/
def deleteClass (c : Nat) (M : Matrix) : Matrix :=
  (M.eraseIdx c).map fun row => row.eraseIdx c

/-- The index in the original matrix of index `i` of the matrix with class `c` deleted. -/
def bump (c i : Nat) : Nat :=
  if i < c then i else i + 1

/-! ## Lemmas: the matrix and `updateIoU` -/

theorem cell_increment {M M' : Matrix} {r c : Nat} (h : increment M r c = some M')
    (r' c' : Nat) :
    cell M' r' c' = cell M r' c' + (if r' = r ∧ c' = c then 1 else 0) := by
  unfold increment at h
  cases hr : M[r]? with
  | none => simp [hr] at h
  | some row =>
    cases hc : row[c]? with
    | none => simp [hr, hc] at h
    | some v =>
      simp only [hr, hc, Option.some.injEq] at h
      subst h
      obtain ⟨hrlt, hrow⟩ := List.getElem?_eq_some.mp hr
      obtain ⟨hclt, hv⟩ := List.getElem?_eq_some.mp hc
      unfold cell
      by_cases e1 : r' = r
      · subst e1
        by_cases e2 : c' = c
        · subst e2
          simp [List.getD_eq_getElem?_getD, List.getElem?_set, hrlt, hclt, hr, hc]
        · have e2' : ¬ c = c' := fun h => e2 h.symm
          simp [List.getD_eq_getElem?_getD, List.getElem?_set, hrlt, hr, e2, e2']
      · have e1' : ¬ r = r' := fun h => e1 h.symm
        simp [List.getD_eq_getElem?_getD, List.getElem?_set, e1, e1']

theorem increment_square {M : Matrix} {n r c : Nat} (hM : IsSquare M n) (hr : r < n)
    (hc : c < n) : ∃ M', increment M r c = some M' ∧ IsSquare M' n := by
  obtain ⟨hlen, hrows⟩ := hM
  have hr' : r < M.length := by omega
  have hrow : (M[r]).length = n := hrows _ (List.getElem_mem _)
  have hc' : c < (M[r]).length := by omega
  refine ⟨M.set r ((M[r]).set c ((M[r])[c] + 1)), ?_, ?_, ?_⟩
  · simp [increment, List.getElem?_eq_getElem hr', List.getElem?_eq_getElem hc']
  · simpa using hlen
  · intro row hmem
    rcases List.mem_or_eq_of_mem_set hmem with h | h
    · exact hrows _ h
    · subst h
      simpa using hrow

theorem updateIoU_cons (M : Matrix) (b p : Nat) (raw pred : List Nat) (numClasses : Int) :
    updateIoU M (b :: raw) (p :: pred) numClasses =
      if (gt2pred b : Int) > numClasses - 1 then updateIoU M raw pred numClasses
      else (increment M (gt2pred b) p).bind fun M' => updateIoU M' raw pred numClasses := by
  simp only [updateIoU, List.map_cons, countLoop]
  by_cases h : (gt2pred b : Int) > numClasses - 1
  · simp [h]
  · by_cases e : gt2pred b = p
    · simp [h, e]
    · simp [h, e]

theorem updateIoU_nil (M : Matrix) (pred : List Nat) (numClasses : Int) :
    updateIoU M [] pred numClasses = some M := by
  simp [updateIoU, countLoop]

theorem updateIoU_spec (n : Nat) :
    ∀ (raw pred : List Nat) (M : Matrix), IsSquare M n → raw.length ≤ pred.length →
      (∀ p ∈ pred, p < n) →
      ∃ M', updateIoU M raw pred (n : Int) = some M' ∧ IsSquare M' n ∧
        ∀ r c, cell M' r c = cell M r c + pixelCount n raw pred r c := by
  intro raw
  induction raw with
  | nil =>
    intro pred M hM _ _
    exact ⟨M, updateIoU_nil _ _ _, hM, fun r c => by simp [pixelCount]⟩
  | cons b raw ih =>
    intro pred M hM hlen hp
    cases pred with
    | nil => simp at hlen
    | cons p pred =>
      have hlen' : raw.length ≤ pred.length := by simpa using hlen
      have hp' : ∀ q ∈ pred, q < n := fun q hq => hp q (List.mem_cons_of_mem _ hq)
      have hpn : p < n := hp p (List.mem_cons_self _ _)
      rw [updateIoU_cons]
      by_cases hg : (gt2pred b : Int) > (n : Int) - 1
      · obtain ⟨M', h1, h2, h3⟩ := ih pred M hM hlen' hp'
        refine ⟨M', by simp [hg, h1], h2, fun r c => ?_⟩
        have hge : ¬ gt2pred b < n := by omega
        rw [h3 r c]
        simp [pixelCount, List.countP_cons, hge]
      · have hlt : gt2pred b < n := by omega
        obtain ⟨M1, hi, hsq⟩ := increment_square hM hlt hpn
        obtain ⟨M', h1, h2, h3⟩ := ih pred M1 hsq hlen' hp'
        refine ⟨M', by simp [hg, hi, h1], h2, fun r c => ?_⟩
        rw [h3 r c, cell_increment hi r c]
        simp only [pixelCount, List.zip_cons_cons, List.countP_cons]
        by_cases e : r = gt2pred b ∧ c = p
        · obtain ⟨e1, e2⟩ := e
          subst e1 e2
          simp [hlt]
          omega
        · have e' : ¬ (gt2pred b = r ∧ p = c ∧ gt2pred b < n) := by
            rintro ⟨a1, a2, _⟩
            exact e ⟨a1.symm, a2.symm⟩
          simp [e, e']

/-! ## Lemmas: wrapping counters -/

theorem updateIoUWrap_cons (M : Matrix) (b p : Nat) (raw pred : List Nat) (numClasses : Int) :
    updateIoUWrap M (b :: raw) (p :: pred) numClasses =
      if (gt2pred b : Int) > numClasses - 1 then updateIoUWrap M raw pred numClasses
      else (incrementWrap M (gt2pred b) p).bind fun M' => updateIoUWrap M' raw pred numClasses := by
  simp only [updateIoUWrap, List.map_cons, countLoopWrap]
  by_cases h : (gt2pred b : Int) > numClasses - 1
  · simp [h]
  · by_cases e : gt2pred b = p
    · simp [h, e]
    · simp [h, e]

theorem updateIoUWrap_nil (M : Matrix) (pred : List Nat) (numClasses : Int) :
    updateIoUWrap M [] pred numClasses = some M := by
  simp [updateIoUWrap, countLoopWrap]

/-- Below `2^64` the wrapping increment is the plain increment. -/
theorem incrementWrap_eq_increment {M M' : Matrix} {r c : Nat}
    (h : increment M r c = some M') (hlt : cell M' r c < counterModulus) :
    incrementWrap M r c = some M' := by
  have hcell := cell_increment h r c
  unfold increment at h
  unfold incrementWrap
  cases hr : M[r]? with
  | none => simp [hr] at h
  | some row =>
    cases hc : row[c]? with
    | none => simp [hr, hc] at h
    | some v =>
      simp only [hr, hc, Option.some.injEq] at h
      have hv : cell M r c = v := by
        simp [cell, List.getD_eq_getElem?_getD, hr, hc]
      have hmod : (v + 1) % counterModulus = v + 1 := by
        apply Nat.mod_eq_of_lt
        rw [hcell, hv] at hlt
        simpa using hlt
      simp only [hc, hmod, h]

/-- With unbounded counters no cell decreases. -/
theorem updateIoU_mono (numClasses : Int) :
    ∀ (raw pred : List Nat) (M M' : Matrix), updateIoU M raw pred numClasses = some M' →
      ∀ r c, cell M r c ≤ cell M' r c := by
  intro raw
  induction raw with
  | nil =>
    intro pred M M' h r c
    rw [updateIoU_nil] at h
    injection h with h
    subst h
    exact le_refl _
  | cons b raw ih =>
    intro pred M M' h r c
    cases pred with
    | nil => simp [updateIoU, countLoop] at h
    | cons p pred =>
      rw [updateIoU_cons] at h
      by_cases hg : (gt2pred b : Int) > numClasses - 1
      · rw [if_pos hg] at h
        exact ih pred M M' h r c
      · rw [if_neg hg] at h
        obtain ⟨M1, hi, h1⟩ := Option.bind_eq_some.mp h
        have := ih pred M1 M' h1 r c
        rw [cell_increment hi r c] at this
        omega

/-- The wrapping `updateIoU` returns what the unbounded one returns whenever every cell of that
result is below `2^64`. -/
theorem updateIoUWrap_eq_updateIoU (numClasses : Int) :
    ∀ (raw pred : List Nat) (M M' : Matrix), updateIoU M raw pred numClasses = some M' →
      (∀ r c, cell M' r c < counterModulus) →
      updateIoUWrap M raw pred numClasses = some M' := by
  intro raw
  induction raw with
  | nil =>
    intro pred M M' h _
    rw [updateIoU_nil] at h
    rw [updateIoUWrap_nil]
    exact h
  | cons b raw ih =>
    intro pred M M' h hlt
    cases pred with
    | nil => simp [updateIoU, countLoop] at h
    | cons p pred =>
      rw [updateIoU_cons] at h
      rw [updateIoUWrap_cons]
      by_cases hg : (gt2pred b : Int) > numClasses - 1
      · rw [if_pos hg] at h
        rw [if_pos hg]
        exact ih pred M M' h hlt
      · rw [if_neg hg] at h
        rw [if_neg hg]
        obtain ⟨M1, hi, h1⟩ := Option.bind_eq_some.mp h
        have hmono := updateIoU_mono numClasses raw pred M1 M' h1 (gt2pred b) p
        have hw := incrementWrap_eq_increment hi (lt_of_le_of_lt hmono (hlt _ _))
        rw [hw, Option.some_bind]
        exact ih pred M1 M' h1 hlt

theorem pixelCount_le_length (n : Nat) (byteP prediction : List Nat) (r c : Nat) :
    pixelCount n byteP prediction r c ≤ byteP.length := by
  unfold pixelCount
  refine le_trans (List.countP_le_length _) ?_
  rw [List.length_zip]
  exact Nat.min_le_left _ _

/-! ## Lemmas: the loops of `mIoU` in closed form -/

theorem foldl_add_eq_sum (f : Nat → ℚ) (L : List Nat) (a : ℚ) :
    L.foldl (fun d j => d + f j) a = a + (L.map f).sum := by
  induction L generalizing a with
  | nil => simp
  | cons x L ih => simp [List.foldl_cons, ih, add_assoc]

theorem denominator_eq_sum (M : Matrix) (numClasses : Int) (c : Nat) :
    denominator M numClasses c =
      ((classRange numClasses).map fun j => (cell M c j : ℚ) + (cell M j c : ℚ)).sum
        - (cell M c c : ℚ) := by
  unfold denominator
  have h := foldl_add_eq_sum (fun j => (cell M c j : ℚ) + (cell M j c : ℚ))
    (classRange numClasses) 0
  simp only [← add_assoc, zero_add] at h
  rw [h]

theorem mIoU_foldl (M : Matrix) (numClasses : Int) (L : List Nat) (s : ℚ) (d : Int) :
    L.foldl (mIoUStep M numClasses) (s, d) =
      (s + ((L.filter fun c => decide (denominator M numClasses c ≠ 0)).map
              (iou M numClasses)).sum,
       d - (L.length : Int)
         + ((L.filter fun c => decide (denominator M numClasses c ≠ 0)).length : Int)) := by
  induction L generalizing s d with
  | nil => simp
  | cons c L ih =>
    rw [List.foldl_cons]
    by_cases h : denominator M numClasses c = 0
    · have hs : mIoUStep M numClasses (s, d) c = (s, d - 1) := by simp [mIoUStep, h]
      rw [hs, ih]
      simp only [List.filter_cons, h, ne_eq, not_true_eq_false, decide_False,
        Bool.false_eq_true, if_false, List.length_cons, Nat.cast_add, Nat.cast_one]
      congr 1
      ring
    · have hs : mIoUStep M numClasses (s, d) c = (s + iou M numClasses c, d) := by
        simp [mIoUStep, h, iou]
      rw [hs, ih]
      simp only [List.filter_cons, h, ne_eq, not_false_eq_true, decide_True, if_true,
        List.map_cons, List.sum_cons, List.length_cons, Nat.cast_add, Nat.cast_one]
      congr 1
      · ring
      · ring

theorem classRange_length (n : Nat) (hn : 1 ≤ n) :
    (((classRange (n : Int)).length : Nat) : Int) = (n : Int) - 1 := by
  simp [classRange]
  omega

theorem mem_classRange (n : Nat) (c : Nat) : c ∈ classRange (n : Int) ↔ 1 ≤ c ∧ c < n := by
  simp only [classRange, List.mem_range'_1, Int.toNat_ofNat]
  omega

/-- For `numClasses ≥ 1` the result of `mIoU` is the sum of the counted quotients divided by
the number of counted classes. -/
theorem mIoU_eq_fdiv (M : Matrix) (n : Nat) (hn : 1 ≤ n) :
    mIoU M (n : Int) =
      fdiv (((counted M (n : Int)).map (iou M (n : Int))).sum)
        ((counted M (n : Int)).length : ℚ) := by
  unfold mIoU
  simp only [mIoU_foldl, zero_add]
  show fdiv ((counted M (n : Int)).map (iou M (n : Int))).sum _ = _
  have h := classRange_length n hn
  have e : ((n : Int) - 1 - ((classRange (n : Int)).length : Int)
      + ((List.filter (fun c => decide (denominator M (n : Int) c ≠ 0))
          (classRange (n : Int))).length : Int)) = ((counted M (n : Int)).length : Int) := by
    rw [h]
    simp [counted]
  rw [e]
  simp

theorem numerator_le_denominator (M : Matrix) (n c : Nat) (hc : c ∈ classRange (n : Int)) :
    (cell M c c : ℚ) ≤ denominator M (n : Int) c := by
  rw [denominator_eq_sum]
  have hmem : (cell M c c : ℚ) + (cell M c c : ℚ) ∈
      (classRange (n : Int)).map fun j => (cell M c j : ℚ) + (cell M j c : ℚ) :=
    List.mem_map.mpr ⟨c, hc, rfl⟩
  have hnonneg : ∀ x ∈ (classRange (n : Int)).map
      (fun j => (cell M c j : ℚ) + (cell M j c : ℚ)), (0 : ℚ) ≤ x := by
    intro x hx
    obtain ⟨j, _, rfl⟩ := List.mem_map.mp hx
    positivity
  have := List.single_le_sum hnonneg _ hmem
  linarith

theorem iou_nonneg (M : Matrix) (n c : Nat) (hc : c ∈ classRange (n : Int)) :
    0 ≤ iou M (n : Int) c := by
  have h := numerator_le_denominator M n c hc
  have h0 : (0 : ℚ) ≤ (cell M c c : ℚ) := by positivity
  exact div_nonneg h0 (le_trans h0 h)

theorem iou_le_one (M : Matrix) (n c : Nat) (hc : c ∈ classRange (n : Int)) :
    iou M (n : Int) c ≤ 1 := by
  have h := numerator_le_denominator M n c hc
  have h0 : (0 : ℚ) ≤ (cell M c c : ℚ) := by positivity
  exact div_le_one_of_le₀ h (le_trans h0 h)

theorem mem_counted (M : Matrix) (numClasses : Int) (c : Nat) :
    c ∈ counted M numClasses ↔ c ∈ classRange numClasses ∧ denominator M numClasses c ≠ 0 := by
  simp [counted, List.mem_filter]

theorem unit_interval_of_counted (M : Matrix) (n : Nat)
    (h : ∃ c, 1 ≤ c ∧ c < n ∧ denominator M (n : Int) c ≠ 0) :
    ∃ q : ℚ, mIoU M (n : Int) = FloatResult.finite q ∧ 0 ≤ q ∧ q ≤ 1 := by
  obtain ⟨c, h1, h2, h3⟩ := h
  have hn : 1 ≤ n := by omega
  have hc : c ∈ counted M (n : Int) :=
    (mem_counted M _ c).mpr ⟨(mem_classRange n c).mpr ⟨h1, h2⟩, h3⟩
  have hlen : 0 < (counted M (n : Int)).length := List.length_pos_of_mem hc
  have hlenq : (0 : ℚ) < ((counted M (n : Int)).length : ℚ) := by exact_mod_cast hlen
  have hsum0 : 0 ≤ ((counted M (n : Int)).map (iou M (n : Int))).sum := by
    apply List.sum_nonneg
    intro x hx
    obtain ⟨k, hk, rfl⟩ := List.mem_map.mp hx
    exact iou_nonneg M n k ((mem_counted M _ k).mp hk).1
  have hsum1 : ((counted M (n : Int)).map (iou M (n : Int))).sum
      ≤ ((counted M (n : Int)).length : ℚ) := by
    have := List.sum_le_card_nsmul ((counted M (n : Int)).map (iou M (n : Int))) 1 (by
      intro x hx
      obtain ⟨k, hk, rfl⟩ := List.mem_map.mp hx
      exact iou_le_one M n k ((mem_counted M _ k).mp hk).1)
    simpa using this
  refine ⟨((counted M (n : Int)).map (iou M (n : Int))).sum
      / ((counted M (n : Int)).length : ℚ), ?_, ?_, ?_⟩
  · rw [mIoU_eq_fdiv M n hn, fdiv, if_neg (ne_of_gt hlenq)]
  · exact div_nonneg hsum0 hlenq.le
  · exact div_le_one_of_le₀ hsum1 hlenq.le

theorem nan_of_none_counted (M : Matrix) (n : Nat) (hn : 1 ≤ n)
    (h : ∀ c, 1 ≤ c → c < n → denominator M (n : Int) c = 0) :
    mIoU M (n : Int) = FloatResult.nan := by
  have hnil : counted M (n : Int) = [] := by
    apply List.eq_nil_iff_forall_not_mem.mpr
    intro c hc
    obtain ⟨hr, hd⟩ := (mem_counted M _ c).mp hc
    obtain ⟨h1, h2⟩ := (mem_classRange n c).mp hr
    exact hd (h c h1 h2)
  rw [mIoU_eq_fdiv M n hn, hnil]
  simp [fdiv]

/-! ## Lemmas: deleting a class -/

theorem cell_deleteClass (c : Nat) (M : Matrix) (i j : Nat) :
    cell (deleteClass c M) i j = cell M (bump c i) (bump c j) := by
  unfold cell deleteClass bump
  simp only [List.getD_eq_getElem?_getD, List.getElem?_map, List.getElem?_eraseIdx]
  by_cases hi : i < c
  · simp only [hi, if_true]
    cases M[i]? with
    | none => simp
    | some row =>
      by_cases hj : j < c <;> simp [hj, List.getElem?_eraseIdx]
  · simp only [hi, if_false]
    cases M[i + 1]? with
    | none => simp
    | some row =>
      by_cases hj : j < c <;> simp [hj, List.getElem?_eraseIdx]

theorem map_bump_of_le (c : Nat) : ∀ (k s : Nat), c ≤ s →
    (List.range' s k).map (bump c) = List.range' (s + 1) k := by
  intro k
  induction k with
  | zero => intro s _; simp
  | succ k ih =>
    intro s hs
    rw [List.range'_succ, List.range'_succ, List.map_cons, ih (s + 1) (by omega)]
    have : bump c s = s + 1 := by simp [bump]; omega
    rw [this]

theorem filter_ne_of_lt (c : Nat) (k s : Nat) (hs : c < s) :
    (List.range' s k).filter (fun j => decide (j ≠ c)) = List.range' s k := by
  apply List.filter_eq_self.mpr
  intro a ha
  have := (List.mem_range'_1.mp ha).1
  simp
  omega

theorem map_bump_range (c : Nat) : ∀ (k s : Nat), s ≤ c → c < s + k + 1 →
    (List.range' s k).map (bump c) =
      (List.range' s (k + 1)).filter (fun j => decide (j ≠ c)) := by
  intro k
  induction k with
  | zero =>
    intro s h1 h2
    have : s = c := by omega
    subst this
    simp [List.range'_succ]
  | succ k ih =>
    intro s h1 h2
    by_cases e : s = c
    · subst e
      rw [map_bump_of_le s (k + 1) s (le_refl _)]
      rw [List.range'_succ s (k + 1)]
      simp only [List.filter_cons, ne_eq, not_true_eq_false, decide_False, Bool.false_eq_true,
        if_false]
      exact (filter_ne_of_lt s (k + 1) (s + 1) (by omega)).symm
    · have hlt : s < c := by omega
      rw [List.range'_succ s k, List.map_cons, ih (s + 1) (by omega) (by omega)]
      rw [List.range'_succ s (k + 1)]
      have hb : bump c s = s := by simp [bump, hlt]
      simp [List.filter_cons, e, hb]

theorem classRange_delete (n c : Nat) (h1 : 1 ≤ c) (h2 : c < n) :
    (classRange ((n - 1 : Nat) : Int)).map (bump c) =
      (classRange (n : Int)).filter (fun j => decide (j ≠ c)) := by
  simp only [classRange, Int.toNat_ofNat]
  have := map_bump_range c (n - 1 - 1) 1 h1 (by omega)
  have e : n - 1 - 1 + 1 = n - 1 := by omega
  rw [e] at this
  exact this

theorem sum_filter_of_zero (g : Nat → ℚ) (p : Nat → Bool) (L : List Nat)
    (h : ∀ x ∈ L, p x = false → g x = 0) :
    ((L.filter p).map g).sum = (L.map g).sum := by
  induction L with
  | nil => simp
  | cons x L ih =>
    have ih' := ih fun y hy => h y (List.mem_cons_of_mem _ hy)
    by_cases hp : p x = true
    · simp [List.filter_cons, hp, ih']
    · have hp' : p x = false := by simpa using hp
      simp [List.filter_cons, hp', ih', h x (List.mem_cons_self _ _) hp']

theorem bump_lt (c k n : Nat) (hk : k + 1 < n) : bump c k < n := by
  unfold bump
  split <;> omega

theorem bump_ne (c k : Nat) : bump c k ≠ c := by
  unfold bump
  split <;> omega

theorem denominator_deleteClass (M : Matrix) (n c : Nat) (h1 : 1 ≤ c) (h2 : c < n)
    (hz : ∀ j, j < n → cell M c j = 0 ∧ cell M j c = 0) (k : Nat) (hk : k + 1 < n) :
    denominator (deleteClass c M) ((n - 1 : Nat) : Int) k
      = denominator M (n : Int) (bump c k) := by
  rw [denominator_eq_sum, denominator_eq_sum]
  simp only [cell_deleteClass]
  have hmap : ((classRange ((n - 1 : Nat) : Int)).map fun j =>
        (cell M (bump c k) (bump c j) : ℚ) + (cell M (bump c j) (bump c k) : ℚ))
      = (((classRange ((n - 1 : Nat) : Int)).map (bump c)).map fun j =>
        (cell M (bump c k) j : ℚ) + (cell M j (bump c k) : ℚ)) := by
    rw [List.map_map]
    rfl
  rw [hmap, classRange_delete n c h1 h2]
  rw [sum_filter_of_zero (fun j => (cell M (bump c k) j : ℚ) + (cell M j (bump c k) : ℚ))]
  intro x _ hp
  have hxc : x = c := by simpa using hp
  subst hxc
  have hb := hz (bump x k) (bump_lt x k n hk)
  simp [hb.1, hb.2]

theorem denominator_zero_of_absent (M : Matrix) (n c : Nat) (hc : c < n)
    (hz : ∀ j, j < n → cell M c j = 0 ∧ cell M j c = 0) :
    denominator M (n : Int) c = 0 := by
  rw [denominator_eq_sum]
  have hsum : ((classRange (n : Int)).map fun j => (cell M c j : ℚ) + (cell M j c : ℚ)).sum
      = 0 := by
    apply List.sum_eq_zero
    intro x hx
    obtain ⟨j, hj, rfl⟩ := List.mem_map.mp hx
    obtain ⟨_, hlt⟩ := (mem_classRange n j).mp hj
    simp [(hz j hlt).1, (hz j hlt).2]
  simp [hsum, (hz c hc).1]

theorem filter_filter_of_imp (p q : Nat → Bool) (L : List Nat)
    (h : ∀ x ∈ L, p x = true → q x = true) :
    L.filter p = (L.filter q).filter p := by
  induction L with
  | nil => simp
  | cons x L ih =>
    have ih' := ih fun y hy => h y (List.mem_cons_of_mem _ hy)
    by_cases hp : p x = true
    · have hq := h x (List.mem_cons_self _ _) hp
      simp [List.filter_cons, hp, hq, ← ih']
    · by_cases hq : q x = true
      · simp [List.filter_cons, hp, hq, ← ih']
      · simp [List.filter_cons, hp, hq, ← ih']

theorem counted_deleteClass (M : Matrix) (n c : Nat) (h1 : 1 ≤ c) (h2 : c < n)
    (hz : ∀ j, j < n → cell M c j = 0 ∧ cell M j c = 0) :
    counted M (n : Int) = (counted (deleteClass c M) ((n - 1 : Nat) : Int)).map (bump c) := by
  have hzero := denominator_zero_of_absent M n c h2 hz
  unfold counted
  rw [filter_filter_of_imp (fun k => decide (denominator M (n : Int) k ≠ 0))
    (fun j => decide (j ≠ c)) (classRange (n : Int))]
  · rw [← classRange_delete n c h1 h2, List.filter_map]
    congr 1
    apply List.filter_congr
    intro k hk
    have hk' := (mem_classRange (n - 1) k).mp hk
    have e := denominator_deleteClass M n c h1 h2 hz k (by omega)
    simp [Function.comp, e]
  · intro x _ hx
    have : x ≠ c := by
      rintro rfl
      simp [hzero] at hx
    simpa using this

theorem mIoU_deleteClass (M : Matrix) (n c : Nat) (h1 : 1 ≤ c) (h2 : c < n)
    (hz : ∀ j, j < n → cell M c j = 0 ∧ cell M j c = 0) :
    mIoU M (n : Int) = mIoU (deleteClass c M) ((n - 1 : Nat) : Int) := by
  rw [mIoU_eq_fdiv M n (by omega), mIoU_eq_fdiv (deleteClass c M) (n - 1) (by omega)]
  rw [counted_deleteClass M n c h1 h2 hz, List.length_map, List.map_map]
  congr 2
  apply List.map_congr_left
  intro k hk
  have hk' := (mem_classRange (n - 1) k).mp ((mem_counted _ _ k).mp hk).1
  have e := denominator_deleteClass M n c h1 h2 hz k (by omega)
  simp [Function.comp, iou, e, cell_deleteClass]

/-! ## Lemmas: diagonal matrices and all-correct predictions -/

theorem denominator_diagonal (M : Matrix) (n k : Nat) (hk : k ∈ classRange (n : Int))
    (hd : ∀ r c, r ≠ c → cell M r c = 0) :
    denominator M (n : Int) k = (cell M k k : ℚ) := by
  rw [denominator_eq_sum]
  have h := List.sum_map_eq_nsmul_single (l := classRange (n : Int)) k
    (fun j => (cell M k j : ℚ) + (cell M j k : ℚ)) (by
      intro j hj _
      have e1 : cell M k j = 0 := hd k j (fun e => hj e.symm)
      have e2 : cell M j k = 0 := hd j k hj
      simp [e1, e2])
  have hcount : (classRange (n : Int)).count k = 1 :=
    List.count_eq_one_of_mem (List.nodup_range' _ _) hk
  rw [h, hcount]
  simp

theorem mIoU_diagonal (M : Matrix) (n : Nat) (hd : ∀ r c, r ≠ c → cell M r c = 0)
    (hpos : ∃ c, 1 ≤ c ∧ c < n ∧ 0 < cell M c c) :
    mIoU M (n : Int) = FloatResult.finite 1 := by
  obtain ⟨c, h1, h2, h3⟩ := hpos
  have hn : 1 ≤ n := by omega
  have hcr : c ∈ classRange (n : Int) := (mem_classRange n c).mpr ⟨h1, h2⟩
  have hc : c ∈ counted M (n : Int) := by
    refine (mem_counted M _ c).mpr ⟨hcr, ?_⟩
    rw [denominator_diagonal M n c hcr hd]
    exact_mod_cast (Nat.pos_iff_ne_zero.mp h3)
  have hlen : 0 < (counted M (n : Int)).length := List.length_pos_of_mem hc
  have hlenq : ((counted M (n : Int)).length : ℚ) ≠ 0 := by exact_mod_cast hlen.ne'
  have hone : (counted M (n : Int)).map (iou M (n : Int))
      = (counted M (n : Int)).map fun _ => (1 : ℚ) := by
    apply List.map_congr_left
    intro k hk
    obtain ⟨hkr, hkd⟩ := (mem_counted M _ k).mp hk
    have e := denominator_diagonal M n k hkr hd
    unfold iou
    rw [e] at hkd ⊢
    exact div_self hkd
  rw [mIoU_eq_fdiv M n hn, hone]
  simp [fdiv, hlenq]

/-- One `updateIoU` call on an image whose prediction equals the remapped ground truth at every
pixel: the call succeeds, and only diagonal cells grow. -/
theorem updateIoU_allCorrect (n : Nat) :
    ∀ (raw : List Nat) (M : Matrix), IsSquare M n →
      ∃ M', updateIoU M raw (raw.map gt2pred) (n : Int) = some M' ∧ IsSquare M' n ∧
        (∀ r c, r ≠ c → cell M' r c = cell M r c) ∧
        (∀ r c, cell M r c ≤ cell M' r c) ∧
        (∀ b ∈ raw, gt2pred b < n →
          cell M (gt2pred b) (gt2pred b) < cell M' (gt2pred b) (gt2pred b)) := by
  intro raw
  induction raw with
  | nil =>
    intro M hM
    exact ⟨M, updateIoU_nil _ _ _, hM, fun _ _ _ => rfl, fun _ _ => le_refl _,
      fun b hb => by simp at hb⟩
  | cons b raw ih =>
    intro M hM
    rw [List.map_cons, updateIoU_cons]
    by_cases hg : (gt2pred b : Int) > (n : Int) - 1
    · obtain ⟨M', h1, h2, h3, h4, h5⟩ := ih M hM
      refine ⟨M', by simp [hg, h1], h2, h3, h4, ?_⟩
      intro x hx hxn
      rcases List.mem_cons.mp hx with e | hx'
      · subst e
        omega
      · exact h5 x hx' hxn
    · have hlt : gt2pred b < n := by omega
      obtain ⟨M1, hi, hsq⟩ := increment_square hM hlt hlt
      obtain ⟨M', h1, h2, h3, h4, h5⟩ := ih M1 hsq
      have hcell := cell_increment hi
      refine ⟨M', by simp [hg, hi, h1], h2, ?_, ?_, ?_⟩
      · intro r c hrc
        rw [h3 r c hrc, hcell r c]
        have : ¬ (r = gt2pred b ∧ c = gt2pred b) := by
          rintro ⟨e1, e2⟩
          exact hrc (e1.trans e2.symm)
        simp [this]
      · intro r c
        have := h4 r c
        rw [hcell r c] at this
        omega
      · intro x hx hxn
        rcases List.mem_cons.mp hx with e | hx'
        · subst e
          have := h4 (gt2pred x) (gt2pred x)
          rw [hcell] at this
          simp at this
          omega
        · have := h5 x hx' hxn
          have h6 := hcell (gt2pred x) (gt2pred x)
          omega

theorem accumulate_allCorrect (n : Nat) :
    ∀ (imgs : List (List Nat)) (M : Matrix), IsSquare M n →
      ∃ M', accumulate (n : Int) M (imgs.map fun raw => (raw, raw.map gt2pred)) = some M' ∧
        IsSquare M' n ∧
        (∀ r c, r ≠ c → cell M' r c = cell M r c) ∧
        (∀ r c, cell M r c ≤ cell M' r c) ∧
        (∀ raw ∈ imgs, ∀ b ∈ raw, gt2pred b < n →
          cell M (gt2pred b) (gt2pred b) < cell M' (gt2pred b) (gt2pred b)) := by
  intro imgs
  induction imgs with
  | nil =>
    intro M hM
    exact ⟨M, by simp [accumulate], hM, fun _ _ _ => rfl, fun _ _ => le_refl _,
      fun raw hraw => by simp at hraw⟩
  | cons raw imgs ih =>
    intro M hM
    obtain ⟨M1, g1, g2, g3, g4, g5⟩ := updateIoU_allCorrect n raw M hM
    obtain ⟨M', h1, h2, h3, h4, h5⟩ := ih M1 g2
    refine ⟨M', by simp [accumulate, g1, h1], h2, ?_, ?_, ?_⟩
    · intro r c hrc
      rw [h3 r c hrc, g3 r c hrc]
    · intro r c
      exact le_trans (g4 r c) (h4 r c)
    · intro x hx b hb hbn
      rcases List.mem_cons.mp hx with e | hx'
      · subst e
        exact lt_of_lt_of_le (g5 b hb hbn) (h4 _ _)
      · exact lt_of_le_of_lt (g4 _ _) (h5 x hx' b hb hbn)

theorem zeroMatrix_square (n : Nat) : IsSquare (zeroMatrix n) n := by
  refine ⟨by simp [zeroMatrix], ?_⟩
  intro row hrow
  have := List.eq_of_mem_replicate hrow
  simp [this]

theorem cell_zeroMatrix (n r c : Nat) : cell (zeroMatrix n) r c = 0 := by
  unfold cell zeroMatrix
  simp only [List.getD_eq_getElem?_getD, List.getElem?_replicate]
  by_cases hr : r < n
  · by_cases hc : c < n <;> simp [hr, hc, List.getElem?_replicate]
  · simp [hr]

/-! ## Lemmas: the table, the access trace, directory entries -/

theorem foregroundDenominator_eq (M : Matrix) (n c : Nat) :
    foregroundDenominator M n c = denominator M (n : Int) c := by
  rw [denominator_eq_sum]
  unfold foregroundDenominator classRange
  simp only [Int.toNat_ofNat, List.sum_map_add]

theorem foregroundClasses_eq (M : Matrix) (n : Nat) :
    foregroundClasses M n = counted M (n : Int) := by
  unfold foregroundClasses counted classRange
  simp only [Int.toNat_ofNat, foregroundDenominator_eq]

theorem accessedCells_lt (n : Nat) :
    ∀ (gts preds : List Nat), (∀ p ∈ preds, p < n) →
      ∀ rc ∈ accessedCells (n : Int) gts preds, rc.1 < n ∧ rc.2 < n := by
  intro gts
  induction gts with
  | nil => intro preds _ rc h; simp [accessedCells] at h
  | cons g gts ih =>
    intro preds hp rc h
    cases preds with
    | nil => simp [accessedCells] at h
    | cons p preds =>
      have hp' : ∀ q ∈ preds, q < n := fun q hq => hp q (List.mem_cons_of_mem _ hq)
      have hpn : p < n := hp p (List.mem_cons_self _ _)
      unfold accessedCells at h
      by_cases hg : (g : Int) > (n : Int) - 1
      · rw [if_pos hg] at h
        exact ih preds hp' rc h
      · rw [if_neg hg] at h
        have hlt : g < n := by omega
        by_cases e : g = p
        · rw [if_pos e] at h
          rcases List.mem_cons.mp h with h | h
          · subst h; exact ⟨hlt, hlt⟩
          · exact ih preds hp' rc h
        · rw [if_neg e] at h
          rcases List.mem_cons.mp h with h | h
          · subst h; exact ⟨hlt, hpn⟩
          · exact ih preds hp' rc h

theorem processEntry_short (imgDir gtDir imgName : List Char) (h4 : 4 ≤ imgName.length)
    (h15 : imgName.length < 15) : processEntry imgDir gtDir imgName = EntryResult.fault := by
  unfold processEntry preStrLen sizeModulus
  have h : ¬ imgName.length < 4 := by omega
  simp only [h, if_false]
  have e : (imgName.length + (2 ^ 64 - 15)) % 2 ^ 64 = imgName.length + (2 ^ 64 - 15) :=
    Nat.mod_eq_of_lt (by omega)
  rw [e, if_neg (by omega)]

theorem processEntry_long (imgDir gtDir imgName : List Char) (h15 : 15 ≤ imgName.length)
    (hlen : imgName.length < 2 ^ 64) :
    processEntry imgDir gtDir imgName =
      EntryResult.paths (imgName.take (imgName.length - 15)) (imgDir ++ '/' :: imgName)
        (gtDir ++ '/' :: imgName.take (imgName.length - 15)
          ++ "gtFine_labelIds.png".toList) := by
  unfold processEntry preStrLen sizeModulus
  have h : ¬ imgName.length < 4 := by omega
  simp only [h, if_false]
  have e : (imgName.length + (2 ^ 64 - 15)) % 2 ^ 64 = imgName.length - 15 := by
    have : imgName.length + (2 ^ 64 - 15) = (imgName.length - 15) + 2 ^ 64 := by omega
    rw [this, Nat.add_mod_right]
    exact Nat.mod_eq_of_lt (by omega)
  rw [e, if_pos (by omega)]

/-! ## The claims -/

/-- Claim C1, as stated, fails: on the 2-class matrix `[[0,1],[0,1]]` (one background pixel
predicted as class 1, one class-1 pixel predicted correctly) `mIoU` returns `1`, whereas the mean
of `M[c][c] / den(c)` with `den` summed over all columns and rows `0..n-1` is `1/2`. -/
theorem mIoU_ignores_background_confusion :
    mIoU [[0, 1], [0, 1]] ((2 : Nat) : Int) = FloatResult.finite 1 ∧
      trueIoUMean [[0, 1], [0, 1]] 2 = 1 / 2 ∧
      mIoU [[0, 1], [0, 1]] ((2 : Nat) : Int)
        ≠ FloatResult.finite (trueIoUMean [[0, 1], [0, 1]] 2) := by
  have h1 : mIoU [[0, 1], [0, 1]] ((2 : Nat) : Int) = FloatResult.finite 1 := by
    simp [mIoU, classRange, mIoUStep, denominator, cell, fdiv]
  have h2 : trueIoUMean [[0, 1], [0, 1]] 2 = 1 / 2 := by
    simp [trueIoUMean, trueIoUDenominator, cell, List.range_succ]
    norm_num
  refine ⟨h1, h2, ?_⟩
  rw [h1, h2]
  intro h
  injection h with h
  norm_num at h

/-- Claim C1, amended: for every `numClasses = n ≥ 2` and every matrix `M`, `mIoU(M, n)` is the
mean, over the classes `c` in `1..n-1` whose denominator is non-zero, of `M[c][c] / den(c)`, where
`den(c) = (Σ_{j=1..n-1} M[c][j]) + (Σ_{j=1..n-1} M[j][c]) − M[c][c]`: row `0` and column `0` (the
pixels confused with class 0) are not part of the denominator.  With no such class the result
is NaN.  Arithmetic is exact. -/
theorem mIoU_eq_foreground_mean (n : Nat) (hn : 2 ≤ n) (M : Matrix) :
    (foregroundClasses M n ≠ [] →
      mIoU M (n : Int) = FloatResult.finite
        (((foregroundClasses M n).map fun c =>
            (cell M c c : ℚ) / foregroundDenominator M n c).sum
          / ((foregroundClasses M n).length : ℚ))) ∧
    (foregroundClasses M n = [] → mIoU M (n : Int) = FloatResult.nan) := by
  have hmap : ((foregroundClasses M n).map fun c =>
      (cell M c c : ℚ) / foregroundDenominator M n c)
      = (counted M (n : Int)).map (iou M (n : Int)) := by
    rw [foregroundClasses_eq]
    apply List.map_congr_left
    intro c _
    simp [iou, foregroundDenominator_eq]
  rw [mIoU_eq_fdiv M n (by omega), hmap, foregroundClasses_eq]
  constructor
  · intro hne
    have hlen : ((counted M (n : Int)).length : ℚ) ≠ 0 := by
      have := List.length_pos.mpr hne
      exact_mod_cast this.ne'
    simp [fdiv, hlen]
  · intro hnil
    simp [hnil, fdiv]

/-- Witness for `mIoU_eq_foreground_mean`: the 3-class matrix `[[4,1,0],[2,3,1],[0,0,0]]`. -/
theorem mIoU_eq_foreground_mean_witness :
    2 ≤ 3 ∧
    ((foregroundClasses [[4, 1, 0], [2, 3, 1], [0, 0, 0]] 3 ≠ [] →
      mIoU [[4, 1, 0], [2, 3, 1], [0, 0, 0]] ((3 : Nat) : Int) = FloatResult.finite
        (((foregroundClasses [[4, 1, 0], [2, 3, 1], [0, 0, 0]] 3).map fun c =>
            (cell [[4, 1, 0], [2, 3, 1], [0, 0, 0]] c c : ℚ)
              / foregroundDenominator [[4, 1, 0], [2, 3, 1], [0, 0, 0]] 3 c).sum
          / ((foregroundClasses [[4, 1, 0], [2, 3, 1], [0, 0, 0]] 3).length : ℚ))) ∧
    (foregroundClasses [[4, 1, 0], [2, 3, 1], [0, 0, 0]] 3 = [] →
      mIoU [[4, 1, 0], [2, 3, 1], [0, 0, 0]] ((3 : Nat) : Int) = FloatResult.nan)) :=
  ⟨by decide, mIoU_eq_foreground_mean 3 (by decide) [[4, 1, 0], [2, 3, 1], [0, 0, 0]]⟩

/-- Claim C2, as stated, fails: on the 2-class matrix whose cell `[1][1]` holds `2^64 - 1`, one
pixel with raw id `5` (remapped to class 1) and prediction `1` satisfies the claim's conditions,
and `iouCounter[1][1] ++` wraps the cell to `0`: the cell decreases instead of gaining one
count. -/
theorem counter_wraps_at_max :
    IsSquare [[0, 0], [0, 18446744073709551615]] 2 ∧ [5].length = [1].length ∧
      (∀ p ∈ [1], p < 2) ∧ gt2pred 5 = 1 ∧
      updateIoUWrap [[0, 0], [0, 18446744073709551615]] [5] [1] ((2 : Nat) : Int)
        = some [[0, 0], [0, 0]] ∧
      cell [[0, 0], [0, 0]] 1 1 < cell [[0, 0], [0, 18446744073709551615]] 1 1 := by
  refine ⟨?_, by decide, by decide, by decide, by decide, by decide⟩
  unfold IsSquare
  decide

/-- Claim C2, amended: for every `numClasses = n`, every `n × n` matrix `M` and every pair of
equal-length ground-truth and prediction buffers whose predicted ids are all `< n`, provided
that for every cell the old count plus the number of pixels added to it stays below `2^64`,
`updateIoU` (with its wrapping 64-bit counters) returns the matrix in which every cell `[r][c]`
is the old cell plus the number of pixels `i` with `gt2pred(raw[i]) = r`, `pred[i] = c` and
`gt2pred(raw[i]) < n`; pixels with `gt2pred(raw[i]) ≥ n` add nothing, and no cell decreases. -/
theorem updateIoUWrap_adds_pixel_counts (n : Nat) (M : Matrix) (byteP prediction : List Nat)
    (hM : IsSquare M n) (hlen : byteP.length = prediction.length)
    (hpred : ∀ p ∈ prediction, p < n)
    (hfit : ∀ r c, cell M r c + pixelCount n byteP prediction r c < counterModulus) :
    ∃ M', updateIoUWrap M byteP prediction (n : Int) = some M' ∧ IsSquare M' n ∧
      (∀ r c, cell M' r c = cell M r c + pixelCount n byteP prediction r c) ∧
      (∀ r c, cell M r c ≤ cell M' r c) := by
  obtain ⟨M', h1, h2, h3⟩ := updateIoU_spec n byteP prediction M hM (le_of_eq hlen) hpred
  have hlt : ∀ r c, cell M' r c < counterModulus := fun r c => by
    rw [h3 r c]
    exact hfit r c
  exact ⟨M', updateIoUWrap_eq_updateIoU (n : Int) byteP prediction M M' h1 hlt, h2, h3,
    fun r c => by rw [h3 r c]; exact Nat.le_add_right _ _⟩

/-- Witness for `updateIoUWrap_adds_pixel_counts`: two classes, three pixels with raw ids `5`,
`0` and `32` (`32` is remapped to `21 ≥ 2` and adds nothing). -/
theorem updateIoUWrap_adds_pixel_counts_witness :
    IsSquare (zeroMatrix 2) 2 ∧ [5, 0, 32].length = [1, 1, 0].length ∧
    (∀ p ∈ [1, 1, 0], p < 2) ∧
    (∀ r c, cell (zeroMatrix 2) r c + pixelCount 2 [5, 0, 32] [1, 1, 0] r c < counterModulus) ∧
    ∃ M', updateIoUWrap (zeroMatrix 2) [5, 0, 32] [1, 1, 0] ((2 : Nat) : Int) = some M' ∧
      IsSquare M' 2 ∧
      (∀ r c, cell M' r c = cell (zeroMatrix 2) r c + pixelCount 2 [5, 0, 32] [1, 1, 0] r c) ∧
      (∀ r c, cell (zeroMatrix 2) r c ≤ cell M' r c) :=
  have hfit : ∀ r c,
      cell (zeroMatrix 2) r c + pixelCount 2 [5, 0, 32] [1, 1, 0] r c < counterModulus :=
    fun r c => by
      have h := pixelCount_le_length 2 [5, 0, 32] [1, 1, 0] r c
      rw [cell_zeroMatrix]
      simp only [List.length_cons, List.length_nil] at h
      unfold counterModulus
      omega
  ⟨zeroMatrix_square 2, rfl, by decide, hfit,
    updateIoUWrap_adds_pixel_counts 2 (zeroMatrix 2) [5, 0, 32] [1, 1, 0] (zeroMatrix_square 2)
      rfl (by decide) hfit⟩

/-- Claim C5: starting from the all-zero `n × n` matrix, any sequence of `updateIoU` calls in
which every pixel's prediction equals `gt2pred` of its raw ground-truth id succeeds and leaves
every off-diagonal cell `0`; and if at least one pixel has a remapped class in `1..n-1`, `mIoU`
returns exactly `1`. -/
theorem allCorrect_gives_diagonal_and_one (n : Nat) (imgs : List (List Nat)) :
    ∃ M', accumulate (n : Int) (zeroMatrix n) (imgs.map fun raw => (raw, raw.map gt2pred))
        = some M' ∧
      (∀ r c, r ≠ c → cell M' r c = 0) ∧
      ((∃ raw ∈ imgs, ∃ b ∈ raw, 1 ≤ gt2pred b ∧ gt2pred b < n) →
        mIoU M' (n : Int) = FloatResult.finite 1) := by
  obtain ⟨M', h1, _, h3, _, h5⟩ := accumulate_allCorrect n imgs (zeroMatrix n)
    (zeroMatrix_square n)
  have hd : ∀ r c, r ≠ c → cell M' r c = 0 := fun r c hrc => by
    rw [h3 r c hrc, cell_zeroMatrix]
  refine ⟨M', h1, hd, ?_⟩
  rintro ⟨raw, hraw, b, hb, hb1, hbn⟩
  apply mIoU_diagonal M' n hd
  exact ⟨gt2pred b, hb1, hbn, lt_of_le_of_lt (Nat.zero_le _) (h5 raw hraw b hb hbn)⟩

/-- Witness for `allCorrect_gives_diagonal_and_one`: two all-correct images over three classes,
and the matrix `diag(10, 20, 30)` of the specification's scenario. -/
theorem allCorrect_gives_diagonal_and_one_witness :
    (∃ M', accumulate ((3 : Nat) : Int) (zeroMatrix 3)
          ([[5, 6, 0], [6, 6]].map fun raw => (raw, raw.map gt2pred)) = some M' ∧
        (∀ r c, r ≠ c → cell M' r c = 0) ∧
        ((∃ raw ∈ [[5, 6, 0], [6, 6]], ∃ b ∈ raw, 1 ≤ gt2pred b ∧ gt2pred b < 3) →
          mIoU M' ((3 : Nat) : Int) = FloatResult.finite 1)) ∧
    (∃ raw ∈ [[5, 6, 0], [6, 6]], ∃ b ∈ raw, 1 ≤ gt2pred b ∧ gt2pred b < 3) ∧
    mIoU [[10, 0, 0], [0, 20, 0], [0, 0, 30]] ((3 : Nat) : Int) = FloatResult.finite 1 :=
  ⟨allCorrect_gives_diagonal_and_one 3 [[5, 6, 0], [6, 6]],
    ⟨[5, 6, 0], by simp, 5, by simp, by decide, by decide⟩,
    by simp [mIoU, classRange, mIoUStep, denominator, cell, fdiv, List.range'_succ]⟩

/-- Claim C6: for every matrix `M` over `n` classes and every class `c` in `1..n-1` whose row
`c` and column `c` are entirely zero, class `c` is not among the classes `mIoU` averages over, and
`mIoU(M, n)` equals the `mIoU` of `M` with row and column `c` deleted (over `n-1` classes). -/
theorem absent_class_is_removed (n c : Nat) (M : Matrix) (h1 : 1 ≤ c) (h2 : c < n)
    (hz : ∀ j, j < n → cell M c j = 0 ∧ cell M j c = 0) :
    c ∉ counted M (n : Int) ∧
      mIoU M (n : Int) = mIoU (deleteClass c M) ((n - 1 : Nat) : Int) := by
  refine ⟨?_, mIoU_deleteClass M n c h1 h2 hz⟩
  intro hc
  exact ((mem_counted M _ c).mp hc).2 (denominator_zero_of_absent M n c h2 hz)

/-- Witness for `absent_class_is_removed`: three classes with class 2 all zero; the result is
the IoU of class 1 alone. -/
theorem absent_class_is_removed_witness :
    1 ≤ 2 ∧ 2 < 3 ∧
    (∀ j, j < 3 → cell [[5, 1, 0], [2, 3, 0], [0, 0, 0]] 2 j = 0 ∧
      cell [[5, 1, 0], [2, 3, 0], [0, 0, 0]] j 2 = 0) ∧
    (2 ∉ counted [[5, 1, 0], [2, 3, 0], [0, 0, 0]] ((3 : Nat) : Int) ∧
      mIoU [[5, 1, 0], [2, 3, 0], [0, 0, 0]] ((3 : Nat) : Int)
        = mIoU (deleteClass 2 [[5, 1, 0], [2, 3, 0], [0, 0, 0]]) ((3 - 1 : Nat) : Int)) ∧
    mIoU (deleteClass 2 [[5, 1, 0], [2, 3, 0], [0, 0, 0]]) ((3 - 1 : Nat) : Int)
      = FloatResult.finite (iou [[5, 1, 0], [2, 3, 0], [0, 0, 0]] ((3 : Nat) : Int) 1) :=
  ⟨by decide, by decide, by decide,
    absent_class_is_removed 3 2 [[5, 1, 0], [2, 3, 0], [0, 0, 0]] (by decide) (by decide)
      (by decide),
    by simp [mIoU, classRange, mIoUStep, denominator, cell, fdiv, deleteClass, iou,
      List.range'_succ, List.eraseIdx]⟩

/-- Claim C7: for every `numClasses = n ≥ 1` (the class count of a loaded network; `n = 1` is
the smallest) and every matrix `M` for which no class in `1..n-1` has a non-zero denominator
(including the all-zero matrix and `n = 1`), `mIoU` returns NaN, the result of the division
`0 / 0`; NaN is different from every finite value, in particular from a valid `0.0`. -/
theorem no_counted_class_gives_nan (n : Nat) (hn : 1 ≤ n) (M : Matrix)
    (hz : ∀ c, 1 ≤ c → c < n → denominator M (n : Int) c = 0) :
    mIoU M (n : Int) = FloatResult.nan ∧ ∀ q : ℚ, mIoU M (n : Int) ≠ FloatResult.finite q := by
  have h := nan_of_none_counted M n hn hz
  refine ⟨h, fun q => ?_⟩
  rw [h]
  intro h'
  cases h'

/-- Witness for `no_counted_class_gives_nan`: the all-zero 3-class matrix. -/
theorem no_counted_class_gives_nan_witness :
    1 ≤ 3 ∧
    (∀ c, 1 ≤ c → c < 3 → denominator (zeroMatrix 3) ((3 : Nat) : Int) c = 0) ∧
    (mIoU (zeroMatrix 3) ((3 : Nat) : Int) = FloatResult.nan ∧
      ∀ q : ℚ, mIoU (zeroMatrix 3) ((3 : Nat) : Int) ≠ FloatResult.finite q) :=
  have hz : ∀ c, 1 ≤ c → c < 3 → denominator (zeroMatrix 3) ((3 : Nat) : Int) c = 0 :=
    fun c _ hc => denominator_zero_of_absent (zeroMatrix 3) 3 c hc
      (fun j _ => ⟨cell_zeroMatrix 3 c j, cell_zeroMatrix 3 j c⟩)
  ⟨by decide, hz, no_counted_class_gives_nan 3 (by decide) (zeroMatrix 3) hz⟩

/-- Claim C8: for every `numClasses = n`, every `n × n` matrix, every raw ground-truth buffer
and every prediction buffer of the same length whose values are all `< n`, every row index and
every column index at which `updateIoU` touches the matrix is `< n`, and the call completes
without an access outside the matrix. -/
theorem updateIoU_indices_in_range (n : Nat) (M : Matrix) (byteP prediction : List Nat)
    (hM : IsSquare M n) (hlen : byteP.length = prediction.length)
    (hpred : ∀ p ∈ prediction, p < n) :
    (∀ rc ∈ accessedCells (n : Int) (byteP.map gt2pred) prediction, rc.1 < n ∧ rc.2 < n) ∧
      ∃ M', updateIoU M byteP prediction (n : Int) = some M' ∧ IsSquare M' n := by
  refine ⟨accessedCells_lt n _ _ hpred, ?_⟩
  obtain ⟨M', h1, h2, _⟩ := updateIoU_spec n byteP prediction M hM (le_of_eq hlen) hpred
  exact ⟨M', h1, h2⟩

/-- Witness for `updateIoU_indices_in_range`: 21 classes, raw bytes `255`, `33`, `24`, `0`. -/
theorem updateIoU_indices_in_range_witness :
    IsSquare (zeroMatrix 21) 21 ∧ [255, 33, 24, 0].length = [20, 3, 17, 5].length ∧
    (∀ p ∈ [20, 3, 17, 5], p < 21) ∧
    ((∀ rc ∈ accessedCells ((21 : Nat) : Int) ([255, 33, 24, 0].map gt2pred) [20, 3, 17, 5],
        rc.1 < 21 ∧ rc.2 < 21) ∧
      ∃ M', updateIoU (zeroMatrix 21) [255, 33, 24, 0] [20, 3, 17, 5] ((21 : Nat) : Int)
          = some M' ∧ IsSquare M' 21) :=
  ⟨zeroMatrix_square 21, rfl, by decide,
    updateIoU_indices_in_range 21 (zeroMatrix 21) [255, 33, 24, 0] [20, 3, 17, 5]
      (zeroMatrix_square 21) rfl (by decide)⟩

/-- Claim C9, at the failing input: the entry name `a.png` (5 characters, shorter than the
15-character suffix) is not skipped; `preStrLen = 5 - 15` wraps to `2^64 - 10`, and the copy of
that many characters is a fault. -/
theorem short_name_not_skipped (imgDir gtDir : List Char) :
    processEntry imgDir gtDir ['a', '.', 'p', 'n', 'g'] = EntryResult.fault ∧
      processEntry imgDir gtDir ['a', '.', 'p', 'n', 'g'] ≠ EntryResult.skipped ∧
      preStrLen ['a', '.', 'p', 'n', 'g'] = 2 ^ 64 - 10 := by
  have h := processEntry_short imgDir gtDir ['a', '.', 'p', 'n', 'g'] (by decide) (by decide)
  refine ⟨h, ?_, by decide⟩
  rw [h]
  intro h'
  cases h'

/-- Claim C10: for every `numClasses = n` and every matrix `M` of counts in which at least one
class in `1..n-1` has a non-zero denominator, every counted class has a numerator `M[c][c]` not
above its denominator, and `mIoU(M, n)` is a finite value in the closed interval `[0, 1]`
(exact arithmetic). -/
theorem mIoU_in_unit_interval (n : Nat) (M : Matrix)
    (h : ∃ c, 1 ≤ c ∧ c < n ∧ denominator M (n : Int) c ≠ 0) :
    (∀ c ∈ counted M (n : Int), (cell M c c : ℚ) ≤ denominator M (n : Int) c) ∧
      ∃ q : ℚ, mIoU M (n : Int) = FloatResult.finite q ∧ 0 ≤ q ∧ q ≤ 1 :=
  ⟨fun c hc => numerator_le_denominator M n c ((mem_counted M _ c).mp hc).1,
    unit_interval_of_counted M n h⟩

/-- Witness for `mIoU_in_unit_interval`: a 3-class matrix whose two foreground classes are
confused with each other once. -/
theorem mIoU_in_unit_interval_witness :
    (∃ c, 1 ≤ c ∧ c < 3 ∧
      denominator [[0, 0, 0], [0, 1, 1], [0, 0, 1]] ((3 : Nat) : Int) c ≠ 0) ∧
    ((∀ c ∈ counted [[0, 0, 0], [0, 1, 1], [0, 0, 1]] ((3 : Nat) : Int),
        (cell [[0, 0, 0], [0, 1, 1], [0, 0, 1]] c c : ℚ)
          ≤ denominator [[0, 0, 0], [0, 1, 1], [0, 0, 1]] ((3 : Nat) : Int) c) ∧
      ∃ q : ℚ, mIoU [[0, 0, 0], [0, 1, 1], [0, 0, 1]] ((3 : Nat) : Int) = FloatResult.finite q ∧
        0 ≤ q ∧ q ≤ 1) :=
  have hx : ∃ c, 1 ≤ c ∧ c < 3 ∧
      denominator [[0, 0, 0], [0, 1, 1], [0, 0, 1]] ((3 : Nat) : Int) c ≠ 0 :=
    ⟨1, by decide, by decide, by
      simp [denominator, classRange, cell, List.range'_succ]⟩
  ⟨hx, mIoU_in_unit_interval 3 [[0, 0, 0], [0, 1, 1], [0, 0, 1]] hx⟩

end SegnetConsole
